import Mathlib

/-!
Verification of the two utility scripts of this repository:
`src/utils/plotting.py` (training-curve renderer) and
`src/scripts/preprocess_data.py` (marker-crop transform).

The Python code is shallowly embedded: metric sequences become `List ℚ`,
the history dict becomes a record of optional lists, raster images become
grids of channel triples, and the filesystem effects of the batch transform
(created directories, written files, log lines) are collected in a result
record.  Exceptions raised by the Python code are modelled with
`Except String`.
-/

/-! ## Training-curve renderer (`src/utils/plotting.py`) -/

/-- Binary maximum written as Python's comparison loop does it: keep the
current value unless the challenger is at least as large. -/
def pmax (a b : ℚ) : ℚ := if a ≤ b then b else a

/-- Binary minimum, mirror image of `pmax`. -/
def pmin (a b : ℚ) : ℚ := if b ≤ a then b else a

theorem pmax_eq (a b : ℚ) : pmax a b = max a b := by simp [pmax, max_def]

theorem pmin_eq (a b : ℚ) : pmin a b = min a b := by
  unfold pmin
  rcases le_total a b with h | h
  · rcases eq_or_lt_of_le h with rfl | hlt
    · simp
    · rw [if_neg (not_le.mpr hlt), min_eq_left h]
  · rw [if_pos h, min_eq_right h]

/-- Python `max(iterable)` on a non-empty list, seeded with the first
element: left fold of binary max, exactly the order Python iterates. -/
def pymax1 (a : ℚ) : List ℚ → ℚ
  | [] => a
  | b :: t => pymax1 (pmax a b) t

/-- Python `min(iterable)` on a non-empty list, seeded with the first
element. -/
def pymin1 (a : ℚ) : List ℚ → ℚ
  | [] => a
  | b :: t => pymin1 (pmin a b) t

/-- Python `list.index(v)`: index of the first occurrence of `v`, `none`
when `v` is absent (Python would raise `ValueError`). -/
def pyindex (v : ℚ) : List ℚ → Option ℕ
  | [] => none
  | a :: t => if a = v then some 0 else (pyindex v t).map (· + 1)

/-- The `history.history` dict as consumed by the renderer: the four metric
keys, each possibly absent (`dict.get` returns `None` for a missing key). -/
structure HistoryRec where
  accuracy : Option (List ℚ)
  val_accuracy : Option (List ℚ)
  loss : Option (List ℚ)
  val_loss : Option (List ℚ)
deriving DecidableEq

/-- Observable outcome of a successful render: the four best-epoch
quantities the function computes, and the file path passed to
`plt.savefig` (always called, on `f'{save_path}'`). -/
structure RenderOutput where
  bestAcc : ℚ
  bestAccEpoch : ℕ
  bestLoss : ℚ
  bestLossEpoch : ℕ
  savedFile : Option String
deriving DecidableEq

/-- Python f-string formatting of an optional string: `f'{None}'` is the
literal string `"None"`. -/
def pyStr : Option String → String
  | none => "None"
  | some s => s

/-- Embeds `plot_training_history_with_annotations` from
`src/utils/plotting.py`.  The failure points are modelled in source order:
`len(acc)` raises on a missing `accuracy` key (line 8); `max(val_acc)`
raises on a missing or empty `val_accuracy` (line 11); `min(val_loss)`
raises on a missing or empty `val_loss` (line 14); `plt.plot(epochs, loss)`
raises on a missing `loss` (line 36).  `plt.savefig(f'{save_path}')` is the
last effect (line 47) and is reached only when no exception occurred; note
it is unconditional, so an omitted `save_path` still saves to the file
name `"None"`. -/
def plot_training_history (history : HistoryRec) (save_path : Option String) :
    Except String RenderOutput :=
  match history.accuracy with
  | none => Except.error "TypeError: object of type NoneType has no len()"
  | some _ =>
    match history.val_accuracy with
    | none => Except.error "TypeError: NoneType object is not iterable"
    | some val_acc =>
      match val_acc with
      | [] => Except.error "ValueError: max() arg is an empty sequence"
      | va0 :: vaT =>
        let best_acc := pymax1 va0 vaT
        let best_acc_epoch := (pyindex best_acc (va0 :: vaT)).getD 0 + 1
        match history.val_loss with
        | none => Except.error "TypeError: NoneType object is not iterable"
        | some val_loss =>
          match val_loss with
          | [] => Except.error "ValueError: min() arg is an empty sequence"
          | vl0 :: vlT =>
            let best_loss := pymin1 vl0 vlT
            let best_loss_epoch := (pyindex best_loss (vl0 :: vlT)).getD 0 + 1
            match history.loss with
            | none =>
              Except.error "ValueError: x and y must have same first dimension"
            | some _ =>
              Except.ok
                { bestAcc := best_acc
                  bestAccEpoch := best_acc_epoch
                  bestLoss := best_loss
                  bestLossEpoch := best_loss_epoch
                  savedFile := some (pyStr save_path) }

/-! ## Marker-crop transform (`src/scripts/preprocess_data.py`) -/

/-- A pixel: a triple of 8-bit channel values (BGR on disk, HSV after
conversion). -/
abbrev Pix := ℕ × ℕ × ℕ

/-- A decoded raster, row-major: `rows[i][j]` is the pixel in row `i`
(y coordinate) and column `j` (x coordinate). -/
structure Image where
  rows : List (List Pix)
deriving DecidableEq

/-- Models `img.shape[0]`: the number of rows (height). -/
def imgH (img : Image) : ℕ := img.rows.length

/-- Models `img.shape[1]`: the number of columns (width), read off the first row. -/
def imgW (img : Image) : ℕ := ((img.rows.head?).map List.length).getD 0

/-- Models `cv2.cvtColor(img, cv2.COLOR_BGR2HSV)` on one 8-bit pixel, following
OpenCV's documented formula with H in 0..180 half-degrees (integer
arithmetic; the claims only constrain which side of the threshold a pixel
falls on, and that is hypothesis-side in every theorem below). -/
def bgr2hsvPixel (p : Pix) : Pix :=
  let b := p.1
  let g := p.2.1
  let r := p.2.2
  let v := max b (max g r)
  let mn := min b (min g r)
  let s := if v = 0 then 0 else 255 * (v - mn) / v
  let hraw : ℤ :=
    if v = mn then 0
    else if v = r then 30 * ((g : ℤ) - (b : ℤ)) / ((v : ℤ) - (mn : ℤ))
    else if v = g then 60 + 30 * ((b : ℤ) - (r : ℤ)) / ((v : ℤ) - (mn : ℤ))
    else 120 + 30 * ((r : ℤ) - (g : ℤ)) / ((v : ℤ) - (mn : ℤ))
  let hfix : ℤ := if hraw < 0 then hraw + 180 else hraw
  (hfix.toNat, s, v)

/-- Embeds `np.array([140, 50, 50])`, the lower HSV bound for the pink marker. -/
def lower_pink : Pix := (140, 50, 50)

/-- Embeds `np.array([170, 255, 255])`, the upper HSV bound for the pink marker. -/
def upper_pink : Pix := (170, 255, 255)

/-- Models `cv2.inRange` on a single pixel: channel-wise containment between the
bounds. -/
def inRangePix (lo hi p : Pix) : Bool :=
  decide (lo.1 ≤ p.1 ∧ p.1 ≤ hi.1 ∧ lo.2.1 ≤ p.2.1 ∧ p.2.1 ≤ hi.2.1 ∧
    lo.2.2 ≤ p.2.2 ∧ p.2.2 ≤ hi.2.2)

/-- A binary mask, same layout as the image rows. -/
abbrev Mask := List (List Bool)

/-- Models `cv2.inRange(cv2.cvtColor(img, COLOR_BGR2HSV), lower_pink, upper_pink)`:
the pink-marker mask of an image. -/
def maskOf (img : Image) : Mask :=
  img.rows.map (fun row => row.map (fun p => inRangePix lower_pink upper_pink (bgr2hsvPixel p)))

/-- Mask lookup at a (row, column) position, `false` outside the grid. -/
def maskGet (m : Mask) (p : ℕ × ℕ) : Bool :=
  (((m.get? p.1).bind (fun r => r.get? p.2)).getD false)

/-- Coordinates adjacent to `n` (clipped at zero). -/
def adjCoords (n : ℕ) : List ℕ := if n = 0 then [0, 1] else [n - 1, n, n + 1]

/-- The 8-neighbourhood of a grid position. -/
def nbrs (p : ℕ × ℕ) : List (ℕ × ℕ) :=
  ((adjCoords p.1).flatMap (fun i => (adjCoords p.2).map (fun j => (i, j)))).filter
    (fun q => q ≠ p)

/-- Fuel-bounded flood fill collecting the connected component of the
start positions within the mask. -/
def flood (m : Mask) : ℕ → List (ℕ × ℕ) → List (ℕ × ℕ) → List (ℕ × ℕ)
  | 0, _, vis => vis
  | _ + 1, [], vis => vis
  | fuel + 1, p :: stack, vis =>
    if maskGet m p = true ∧ p ∉ vis then flood m fuel (nbrs p ++ stack) (vis ++ [p])
    else flood m fuel stack vis

/-- All grid positions of a mask, row-major. -/
def allPositions (m : Mask) : List (ℕ × ℕ) :=
  (List.range m.length).flatMap
    (fun i => (List.range ((m.get? i).getD []).length).map (fun j => (i, j)))

/-- Total number of mask cells, used to size the flood-fill fuel. -/
def maskSize (m : Mask) : ℕ := (m.map List.length).foldr (· + ·) 0

/-- Worker for `findContours`: scan the positions in row-major order and
start a flood fill at each set pixel not already assigned to a component. -/
def fcAux (m : Mask) (fuel : ℕ) :
    List (ℕ × ℕ) → List (ℕ × ℕ) → List (List (ℕ × ℕ)) → List (List (ℕ × ℕ))
  | [], _, comps => comps
  | p :: rest, vis, comps =>
    if maskGet m p = true ∧ p ∉ vis then
      fcAux m fuel rest (vis ++ flood m fuel [p] []) (comps ++ [flood m fuel [p] []])
    else fcAux m fuel rest vis comps

/-- Models `cv2.findContours(mask, RETR_EXTERNAL, CHAIN_APPROX_SIMPLE)` at
the level the script consumes it: the list of connected regions of set
pixels (one entry per detected marker region, empty iff the mask is
empty). -/
def findContours (m : Mask) : List (List (ℕ × ℕ)) :=
  fcAux m (9 * (maskSize m + 1) * (maskSize m + 1)) (allPositions m) [] []

/-- Models `cv2.contourArea` as the pixel count of the region. -/
def contourArea (c : List (ℕ × ℕ)) : ℕ := c.length

/-- Python `max(contours, key=cv2.contourArea)`: keep the current contour
unless a later one has strictly larger area (first maximum wins). -/
def pymaxByArea (a : List (ℕ × ℕ)) : List (List (ℕ × ℕ)) → List (ℕ × ℕ)
  | [] => a
  | b :: t => pymaxByArea (if contourArea a < contourArea b then b else a) t

/-- Models `cv2.boundingRect`: the minimal upright rectangle `(x, y, w, h)`
containing all points of the contour (`x` is the column, `y` the row). -/
def boundingRect (c : List (ℕ × ℕ)) : ℕ × ℕ × ℕ × ℕ :=
  match c with
  | [] => (0, 0, 0, 0)
  | q :: t =>
    let minI := t.foldr (fun p a => min p.1 a) q.1
    let maxI := t.foldr (fun p a => max p.1 a) q.1
    let minJ := t.foldr (fun p a => min p.2 a) q.2
    let maxJ := t.foldr (fun p a => max p.2 a) q.2
    (minJ, minI, maxJ - minJ + 1, maxI - minI + 1)

/-- Lines 38-43 of `preprocess_data.py`: pad the detected rectangle by 10
pixels on each side and clamp it to the image bounds.  `shape1` is the
image width (`img.shape[1]`), `shape0` the height (`img.shape[0]`). -/
def padClamp (shape1 shape0 x y w h : ℤ) : ℤ × ℤ × ℤ × ℤ :=
  let pad : ℤ := 10
  let x1 := max 0 (x - pad)
  let y1 := max 0 (y - pad)
  let w1 := min (shape1 - x1) (w + 2 * pad)
  let h1 := min (shape0 - y1) (h + 2 * pad)
  (x1, y1, w1, h1)

/-- Models `img[y:y+h, x:x+w]`: numpy slicing clips at the array bounds. -/
def cropImg (img : Image) (x y w h : ℕ) : Image :=
  ⟨((img.rows.drop y).take h).map (fun r => (r.drop x).take w)⟩

/-- Pixel lookup with a black default outside the grid. -/
def pixAt (img : Image) (i j : ℕ) : Pix :=
  (((img.rows.get? i).bind (fun r => r.get? j)).getD (0, 0, 0))

/-- Models `cv2.resize(img, (tw, th))`: the output grid has exactly `th`
rows of `tw` pixels; each output pixel is sampled deterministically from
the input (nearest-pixel rule standing in for the library's
interpolation — the claims constrain only the output dimensions and
determinism). -/
def resizeImg (img : Image) (tw th : ℕ) : Image :=
  ⟨(List.range th).map
    (fun i => (List.range tw).map (fun j => pixAt img (i * imgH img / th) (j * imgW img / tw)))⟩

/-- Lines 33-49 of `preprocess_data.py` for one readable image: build the
pink mask, find contours, and either return the cropped-and-resized image
(`some`) or report that no marker was found (`none`). -/
def processOne (img : Image) (target : ℕ × ℕ) : Option Image :=
  match findContours (maskOf img) with
  | [] => none
  | c :: rest =>
    let rect := boundingRect (pymaxByArea c rest)
    let pc := padClamp (imgW img) (imgH img) rect.1 rect.2.1 rect.2.2.1 rect.2.2.2
    some (resizeImg (cropImg img pc.1.toNat pc.2.1.toNat pc.2.2.1.toNat pc.2.2.2.toNat)
      target.1 target.2)

/-- An entry of a class directory listing: an image file that either
decodes (`some img`) or is unreadable (`cv2.imread` returns `None`). -/
abbrev ImgEntry := String × Option Image

/-- An entry of the dataset root listing: a class subdirectory with its
image files, or a stray non-directory entry (skipped by the script). -/
inductive FsEntry where
  | dir (imgs : List ImgEntry)
  | file
deriving DecidableEq

/-- The observable effects of `preprocess_dataset`: class names whose
output subdirectory `<output_dir>/<class_name>` was created, written files
(a triple `(class_name, img_name, image)` denotes the file
`<output_dir>/<class_name>/<img_name>`), and printed log lines. -/
structure PpResult where
  createdDirs : List String
  writes : List (String × String × Image)
  logs : List String
deriving DecidableEq

/-- The loop body for one directory entry (lines 25-51): skip unreadable
files with a message, write the processed image, or warn when no marker is
found. -/
def processEntry (data_dir class_name : String) (target : ℕ × ℕ) :
    ImgEntry → List (String × Image) × List String
  | (img_name, none) =>
    ([], ["[SKIP] Could not read image: " ++ data_dir ++ "/" ++ class_name ++ "/" ++ img_name])
  | (img_name, some img) =>
    match processOne img target with
    | some out => ([(img_name, out)], [])
    | none =>
      ([], ["[WARNING] No pink box found in " ++ data_dir ++ "/" ++ class_name ++ "/" ++ img_name])

/-- The inner loop over one class directory: writes and logs accumulated
in file order. -/
def processClass (data_dir class_name : String) (target : ℕ × ℕ) :
    List ImgEntry → List (String × Image) × List String
  | [] => ([], [])
  | e :: rest =>
    ((processEntry data_dir class_name target e).1 ++ (processClass data_dir class_name target rest).1,
     (processEntry data_dir class_name target e).2 ++ (processClass data_dir class_name target rest).2)

/-- First-match lookup of a name in the root listing (the filesystem view
`os.path.join(data_dir, class_name)` resolves to). -/
def lookupEntry (n : String) : List (String × FsEntry) → Option FsEntry
  | [] => none
  | (m, e) :: t => if m = n then some e else lookupEntry n t

/-- Lexicographic comparison of code-point lists, the order Python's
`sorted` uses on strings. -/
def charListLe : List Char → List Char → Bool
  | [], _ => true
  | _ :: _, [] => false
  | a :: as, b :: bs =>
    if a.toNat < b.toNat then true
    else if b.toNat < a.toNat then false
    else charListLe as bs

/-- String comparison by code points. -/
def strLe (s t : String) : Bool := charListLe s.data t.data

/-- Insert into a sorted list of names. -/
def insertSorted (s : String) : List String → List String
  | [] => [s]
  | a :: t => if strLe s a then s :: a :: t else a :: insertSorted s t

/-- Models `sorted(os.listdir(data_dir))`: the root listing's names in ascending
order. -/
def sortedStrings (l : List String) : List String := l.foldr insertSorted []

/-- The outer loop of `preprocess_dataset` over the sorted class names:
non-directory entries are skipped; for a class directory the output
subdirectory is created and every image file is processed. -/
def ppGo (data_dir : String) (target : ℕ × ℕ) (fs : List (String × FsEntry)) :
    List String → PpResult
  | [] => ⟨[], [], []⟩
  | n :: rest =>
    match lookupEntry n fs with
    | none => ppGo data_dir target fs rest
    | some FsEntry.file => ppGo data_dir target fs rest
    | some (FsEntry.dir imgs) =>
      { createdDirs := n :: (ppGo data_dir target fs rest).createdDirs
        writes :=
          (processClass data_dir n target imgs).1.map (fun wi => (n, wi.1, wi.2)) ++
            (ppGo data_dir target fs rest).writes
        logs := (processClass data_dir n target imgs).2 ++ (ppGo data_dir target fs rest).logs }

/-- Embeds `preprocess_dataset(data_dir, output_dir, target_size)`.  The
input filesystem below `data_dir` is given as the root listing `fs`; the
result records the effects under `output_dir` (see `PpResult`). -/
def preprocess_dataset (data_dir : String) (fs : List (String × FsEntry))
    (target : ℕ × ℕ) : PpResult :=
  ppGo data_dir target fs (sortedStrings (fs.map Prod.fst))

/-- A key identifying an output file: class name and image file name
(standing for the path `<output_dir>/<class>/<name>`). -/
abbrev FileKey := String × String

/-- The state of the output tree: contents of each output file, if
present. -/
abbrev Store := FileKey → Option Image

/-- Apply the written files of a run to an output tree in order;
`cv2.imwrite` overwrites an existing file. -/
def applyWrites : List (String × String × Image) → Store → Store
  | [], st => st
  | (c, i, img) :: rest, st =>
    applyWrites rest (fun k => if k = (c, i) then some img else st k)

/-- The last write to a given file key in a run, if any. -/
def lastWrite : List (String × String × Image) → FileKey → Option Image
  | [], _ => none
  | (c, i, img) :: rest, k =>
    match lastWrite rest k with
    | some v => some v
    | none => if k = (c, i) then some img else none

/-- A one-pixel magenta image; BGR `(255, 0, 255)` converts to HSV
`(150, 255, 255)`, inside the pink range, so its marker is detected. -/
def pinkImg : Image := ⟨[[(255, 0, 255)]]⟩

/-- A one-class dataset whose single image contains the marker. -/
def exampleFs : List (String × FsEntry) := [("A", FsEntry.dir [("a", some pinkImg)])]

/-- A one-class dataset whose single image file is unreadable. -/
def exampleFsUnreadable : List (String × FsEntry) := [("B", FsEntry.dir [("b", none)])]

/-! ### Facts about the Python max/min/index primitives -/

theorem pymax1_mem_cons (a : ℚ) (l : List ℚ) : pymax1 a l ∈ a :: l := by
  induction l generalizing a with
  | nil => simp [pymax1]
  | cons b t ih =>
    have h := ih (max a b)
    have hun : pymax1 a (b :: t) = pymax1 (max a b) t := by
      show pymax1 (pmax a b) t = _
      rw [pmax_eq]
    rcases List.mem_cons.mp h with h1 | h1
    · rw [hun, h1]
      rcases max_choice a b with hm | hm
      · rw [hm]; exact List.mem_cons_self _ _
      · rw [hm]; exact List.mem_cons.mpr (Or.inr (List.mem_cons_self _ _))
    · rw [hun]
      exact List.mem_cons.mpr (Or.inr (List.mem_cons.mpr (Or.inr h1)))

theorem le_pymax1 (a : ℚ) (l : List ℚ) : a ≤ pymax1 a l := by
  induction l generalizing a with
  | nil => simp [pymax1]
  | cons b t ih =>
    exact le_trans (le_max_left a b) (by simpa [pymax1, pmax_eq] using ih (max a b))

theorem mem_le_pymax1 (x a : ℚ) (l : List ℚ) (h : x ∈ l) : x ≤ pymax1 a l := by
  induction l generalizing a with
  | nil => cases h
  | cons b t ih =>
    rcases List.mem_cons.mp h with h1 | h1
    · subst h1
      exact le_trans (le_max_right a x) (by simpa [pymax1, pmax_eq] using le_pymax1 (max a x) t)
    · simpa [pymax1, pmax_eq] using ih (max a b) h1

theorem pymin1_mem_cons (a : ℚ) (l : List ℚ) : pymin1 a l ∈ a :: l := by
  induction l generalizing a with
  | nil => simp [pymin1]
  | cons b t ih =>
    have h := ih (min a b)
    have hun : pymin1 a (b :: t) = pymin1 (min a b) t := by
      show pymin1 (pmin a b) t = _
      rw [pmin_eq]
    rcases List.mem_cons.mp h with h1 | h1
    · rw [hun, h1]
      rcases min_choice a b with hm | hm
      · rw [hm]; exact List.mem_cons_self _ _
      · rw [hm]; exact List.mem_cons.mpr (Or.inr (List.mem_cons_self _ _))
    · rw [hun]
      exact List.mem_cons.mpr (Or.inr (List.mem_cons.mpr (Or.inr h1)))

theorem pymin1_le (a : ℚ) (l : List ℚ) : pymin1 a l ≤ a := by
  induction l generalizing a with
  | nil => simp [pymin1]
  | cons b t ih =>
    exact le_trans (by simpa [pymin1, pmin_eq] using ih (min a b)) (min_le_left a b)

theorem pymin1_le_mem (x a : ℚ) (l : List ℚ) (h : x ∈ l) : pymin1 a l ≤ x := by
  induction l generalizing a with
  | nil => cases h
  | cons b t ih =>
    rcases List.mem_cons.mp h with h1 | h1
    · subst h1
      exact le_trans (by simpa [pymin1, pmin_eq] using pymin1_le (min a x) t) (min_le_right a x)
    · simpa [pymin1, pmin_eq] using ih (min a b) h1

theorem pyindex_of_mem (v : ℚ) (l : List ℚ) (h : v ∈ l) : ∃ i, pyindex v l = some i := by
  induction l with
  | nil => cases h
  | cons a t ih =>
    by_cases hav : a = v
    · exact ⟨0, by simp [pyindex, hav]⟩
    · rcases List.mem_cons.mp h with h1 | h1
      · exact absurd h1.symm hav
      · obtain ⟨i, hi⟩ := ih h1
        exact ⟨i + 1, by simp [pyindex, hav, hi]⟩

theorem pyindex_get (v : ℚ) (l : List ℚ) (i : ℕ) (h : pyindex v l = some i) :
    l.get? i = some v := by
  induction l generalizing i with
  | nil => simp [pyindex] at h
  | cons a t ih =>
    by_cases hav : a = v
    · simp [pyindex, hav] at h
      subst h
      simp [hav]
    · simp [pyindex, hav] at h
      obtain ⟨j, hj, hji⟩ := h
      subst hji
      simpa using ih j hj

theorem pyindex_first (v : ℚ) (l : List ℚ) (i : ℕ) (h : pyindex v l = some i) :
    ∀ j, l.get? j = some v → i ≤ j := by
  induction l generalizing i with
  | nil => simp [pyindex] at h
  | cons a t ih =>
    intro j hj
    by_cases hav : a = v
    · simp [pyindex, hav] at h
      omega
    · simp [pyindex, hav] at h
      obtain ⟨k, hk, hki⟩ := h
      subst hki
      cases j with
      | zero => simp at hj; exact absurd hj hav
      | succ m =>
        have := ih k hk m (by simpa using hj)
        omega

/-- Characterization of a successful render: with all four keys present
and the validation lists non-empty, the function returns the record the
source computes on lines 11-15 and saves to `f'{save_path}'`. -/
theorem render_ok (a l : List ℚ) (va0 vl0 : ℚ) (vaT vlT : List ℚ) (sp : Option String) :
    plot_training_history ⟨some a, some (va0 :: vaT), some l, some (vl0 :: vlT)⟩ sp =
      Except.ok
        { bestAcc := pymax1 va0 vaT
          bestAccEpoch := (pyindex (pymax1 va0 vaT) (va0 :: vaT)).getD 0 + 1
          bestLoss := pymin1 vl0 vlT
          bestLossEpoch := (pyindex (pymin1 vl0 vlT) (vl0 :: vlT)).getD 0 + 1
          savedFile := some (pyStr sp) } := rfl

/-- Any successful render determines the fields from the metric lists. -/
theorem render_ok_inv (a l va vl : List ℚ) (sp : Option String) (r : RenderOutput)
    (hr : plot_training_history ⟨some a, some va, some l, some vl⟩ sp = Except.ok r) :
    ∃ va0 vaT vl0 vlT, va = va0 :: vaT ∧ vl = vl0 :: vlT ∧
      r.bestAcc = pymax1 va0 vaT ∧
      r.bestAccEpoch = (pyindex (pymax1 va0 vaT) (va0 :: vaT)).getD 0 + 1 ∧
      r.bestLoss = pymin1 vl0 vlT ∧
      r.bestLossEpoch = (pyindex (pymin1 vl0 vlT) (vl0 :: vlT)).getD 0 + 1 ∧
      r.savedFile = some (pyStr sp) := by
  cases va with
  | nil => simp [plot_training_history] at hr
  | cons va0 vaT =>
    cases vl with
    | nil => simp [plot_training_history] at hr
    | cons vl0 vlT =>
      rw [render_ok] at hr
      have h := (Except.ok.injEq _ _).mp hr
      refine ⟨va0, vaT, vl0, vlT, rfl, rfl, ?_, ?_, ?_, ?_, ?_⟩ <;> rw [← h]

/-- C2: for every history whose four metric sequences are present and
non-empty, the renderer computes `best_acc` as the maximum of
`val_accuracy` (an attained upper bound) and `best_acc_epoch` as an index
attaining it plus one; for `[0.5, 0.9, 0.7]` it computes epoch 2 and value
0.9. -/
theorem claim_C2 :
    (∀ (a l va vl : List ℚ) (sp : Option String) (r : RenderOutput),
        plot_training_history ⟨some a, some va, some l, some vl⟩ sp = Except.ok r →
        r.bestAcc ∈ va ∧ (∀ q ∈ va, q ≤ r.bestAcc) ∧
        ∃ i, r.bestAccEpoch = i + 1 ∧ va.get? i = some r.bestAcc) ∧
    (∃ r, plot_training_history
        ⟨some [1/2, 9/10, 7/10], some [1/2, 9/10, 7/10], some [1/2, 9/10, 7/10],
          some [1/2, 9/10, 7/10]⟩ none = Except.ok r ∧
      r.bestAccEpoch = 2 ∧ r.bestAcc = 9/10) := by
  constructor
  · intro a l va vl sp r hr
    obtain ⟨va0, vaT, vl0, vlT, hva, hvl, hba, hbe, -, -, -⟩ :=
      render_ok_inv a l va vl sp r hr
    subst hva
    subst hvl
    refine ⟨by rw [hba]; exact pymax1_mem_cons va0 vaT, ?_, ?_⟩
    · intro q hq
      rcases List.mem_cons.mp hq with h1 | h1
      · subst h1
        rw [hba]
        exact le_pymax1 q vaT
      · rw [hba]
        exact mem_le_pymax1 q va0 vaT h1
    · obtain ⟨i, hi⟩ :=
        pyindex_of_mem (pymax1 va0 vaT) (va0 :: vaT) (pymax1_mem_cons va0 vaT)
      refine ⟨i, ?_, ?_⟩
      · rw [hbe, hi]
        rfl
      · rw [hba]
        exact pyindex_get _ _ _ hi
  · refine ⟨_, rfl, ?_, ?_⟩ <;> norm_num [pymax1, pmax, pyindex]

/-- Witness for C2: the general statement applied to the spec's example
sequence `[0.5, 0.9, 0.7]`. -/
theorem claim_C2_witness :
    plot_training_history
        ⟨some [1/2, 9/10, 7/10], some [1/2, 9/10, 7/10], some [1/2, 9/10, 7/10],
          some [1/2, 9/10, 7/10]⟩ none =
      Except.ok ⟨9/10, 2, 1/2, 1, some "None"⟩ ∧
    ((9:ℚ)/10 ∈ [(1:ℚ)/2, 9/10, 7/10] ∧
      (∀ q ∈ [(1:ℚ)/2, 9/10, 7/10], q ≤ (9:ℚ)/10) ∧
      ∃ i, (2:ℕ) = i + 1 ∧ [(1:ℚ)/2, 9/10, 7/10].get? i = some ((9:ℚ)/10)) := by
  have hr : plot_training_history
      ⟨some [1/2, 9/10, 7/10], some [1/2, 9/10, 7/10], some [1/2, 9/10, 7/10],
        some [1/2, 9/10, 7/10]⟩ none =
      Except.ok (⟨9/10, 2, 1/2, 1, some "None"⟩ : RenderOutput) := by
    rw [render_ok]
    norm_num [pymax1, pmax, pymin1, pmin, pyindex, pyStr]
  refine ⟨hr, ?_⟩
  simpa using
    claim_C2.1 [1/2, 9/10, 7/10] [1/2, 9/10, 7/10] [1/2, 9/10, 7/10] [1/2, 9/10, 7/10]
      none ⟨9/10, 2, 1/2, 1, some "None"⟩ hr

/-- C3: for every history whose four metric sequences are present and
non-empty, the renderer computes `best_loss` as the minimum of `val_loss`
(an attained lower bound) and `best_loss_epoch` as an index attaining it
plus one; for `[1.0, 0.2, 0.5]` it computes epoch 2 and value 0.2. -/
theorem claim_C3 :
    (∀ (a l va vl : List ℚ) (sp : Option String) (r : RenderOutput),
        plot_training_history ⟨some a, some va, some l, some vl⟩ sp = Except.ok r →
        r.bestLoss ∈ vl ∧ (∀ q ∈ vl, r.bestLoss ≤ q) ∧
        ∃ i, r.bestLossEpoch = i + 1 ∧ vl.get? i = some r.bestLoss) ∧
    (∃ r, plot_training_history
        ⟨some [1, 1/5, 1/2], some [1, 1/5, 1/2], some [1, 1/5, 1/2],
          some [1, 1/5, 1/2]⟩ none = Except.ok r ∧
      r.bestLossEpoch = 2 ∧ r.bestLoss = 1/5) := by
  constructor
  · intro a l va vl sp r hr
    obtain ⟨va0, vaT, vl0, vlT, hva, hvl, -, -, hbl, hble, -⟩ :=
      render_ok_inv a l va vl sp r hr
    subst hva
    subst hvl
    refine ⟨by rw [hbl]; exact pymin1_mem_cons vl0 vlT, ?_, ?_⟩
    · intro q hq
      rcases List.mem_cons.mp hq with h1 | h1
      · subst h1
        rw [hbl]
        exact pymin1_le q vlT
      · rw [hbl]
        exact pymin1_le_mem q vl0 vlT h1
    · obtain ⟨i, hi⟩ :=
        pyindex_of_mem (pymin1 vl0 vlT) (vl0 :: vlT) (pymin1_mem_cons vl0 vlT)
      refine ⟨i, ?_, ?_⟩
      · rw [hble, hi]
        rfl
      · rw [hbl]
        exact pyindex_get _ _ _ hi
  · refine ⟨_, rfl, ?_, ?_⟩ <;> norm_num [pymin1, pmin, pyindex]

/-- Witness for C3: the general statement applied to the spec's example
sequence `[1.0, 0.2, 0.5]`. -/
theorem claim_C3_witness :
    plot_training_history
        ⟨some [1, 1/5, 1/2], some [1, 1/5, 1/2], some [1, 1/5, 1/2],
          some [1, 1/5, 1/2]⟩ none =
      Except.ok ⟨1, 1, 1/5, 2, some "None"⟩ ∧
    ((1:ℚ)/5 ∈ [(1:ℚ), 1/5, 1/2] ∧
      (∀ q ∈ [(1:ℚ), 1/5, 1/2], (1:ℚ)/5 ≤ q) ∧
      ∃ i, (2:ℕ) = i + 1 ∧ [(1:ℚ), 1/5, 1/2].get? i = some ((1:ℚ)/5)) := by
  have hr : plot_training_history
      ⟨some [1, 1/5, 1/2], some [1, 1/5, 1/2], some [1, 1/5, 1/2],
        some [1, 1/5, 1/2]⟩ none =
      Except.ok (⟨1, 1, 1/5, 2, some "None"⟩ : RenderOutput) := by
    rw [render_ok]
    norm_num [pymax1, pmax, pymin1, pmin, pyindex, pyStr]
  refine ⟨hr, ?_⟩
  simpa using
    claim_C3.1 [1, 1/5, 1/2] [1, 1/5, 1/2] [1, 1/5, 1/2] [1, 1/5, 1/2]
      none ⟨1, 1, 1/5, 2, some "None"⟩ hr

/-- C9: when the best validation accuracy (resp. the best validation loss)
is attained at several epochs, the renderer reports the earliest one,
because `list.index` returns the first occurrence. -/
theorem claim_C9 :
    ∀ (a l va vl : List ℚ) (sp : Option String) (r : RenderOutput),
      plot_training_history ⟨some a, some va, some l, some vl⟩ sp = Except.ok r →
      (∀ j, va.get? j = some r.bestAcc → r.bestAccEpoch ≤ j + 1) ∧
      (∀ j, vl.get? j = some r.bestLoss → r.bestLossEpoch ≤ j + 1) := by
  intro a l va vl sp r hr
  obtain ⟨va0, vaT, vl0, vlT, hva, hvl, hba, hbe, hbl, hble, -⟩ :=
    render_ok_inv a l va vl sp r hr
  subst hva
  subst hvl
  constructor
  · intro j hj
    obtain ⟨i, hi⟩ :=
      pyindex_of_mem (pymax1 va0 vaT) (va0 :: vaT) (pymax1_mem_cons va0 vaT)
    rw [hbe, hi]
    rw [hba] at hj
    have := pyindex_first _ _ _ hi j hj
    simp only [Option.getD_some]
    omega
  · intro j hj
    obtain ⟨i, hi⟩ :=
      pyindex_of_mem (pymin1 vl0 vlT) (vl0 :: vlT) (pymin1_mem_cons vl0 vlT)
    rw [hble, hi]
    rw [hbl] at hj
    have := pyindex_first _ _ _ hi j hj
    simp only [Option.getD_some]
    omega

/-- Witness for C9: validation accuracy `[0.9, 0.9]` ties at epochs 1 and
2; the renderer's epoch (1) is at most the later attaining epoch (2). -/
theorem claim_C9_witness :
    (plot_training_history
        ⟨some [1], some [(9:ℚ)/10, 9/10], some [1], some [2, 1, 1]⟩ none =
      Except.ok ⟨9/10, 1, 1, 2, some "None"⟩ ∧
     [(9:ℚ)/10, 9/10].get? 1 = some ((9:ℚ)/10)) ∧
    (1 : ℕ) ≤ 1 + 1 := by
  have hr : plot_training_history
      ⟨some [1], some [(9:ℚ)/10, 9/10], some [1], some [2, 1, 1]⟩ none =
      Except.ok (⟨9/10, 1, 1, 2, some "None"⟩ : RenderOutput) := by
    rw [render_ok]
    norm_num [pymax1, pmax, pymin1, pmin, pyindex, pyStr]
  refine ⟨⟨hr, rfl⟩, ?_⟩
  exact
    (claim_C9 [1] [1] [(9:ℚ)/10, 9/10] [2, 1, 1] none ⟨9/10, 1, 1, 2, some "None"⟩ hr).1
      1 rfl

/-- C4 (divergence witness): with `save_path` omitted (= `None`) and all
four metrics present, the code still reaches the unconditional
`plt.savefig(f'{save_path}')` and persists a chart file named `"None"`,
contradicting the claim that no file is persisted. -/
theorem claim_C4 :
    ∃ r, plot_training_history ⟨some [1/2], some [1/2], some [1/2], some [1/2]⟩ none =
        Except.ok r ∧ r.savedFile = some "None" :=
  ⟨_, rfl, rfl⟩

/-- C5: if any of the four metric keys is absent, the render raises and
aborts: the result is an error, so no `RenderOutput` (and in particular no
saved chart, which the source only reaches on its last line) is
produced. -/
theorem claim_C5 (h : HistoryRec) (sp : Option String)
    (habs : h.accuracy = none ∨ h.val_accuracy = none ∨ h.loss = none ∨
      h.val_loss = none) :
    ∃ msg, plot_training_history h sp = Except.error msg := by
  obtain ⟨a, va, l, vl⟩ := h
  cases a with
  | none => exact ⟨_, rfl⟩
  | some aL =>
    cases va with
    | none => exact ⟨_, rfl⟩
    | some vaL =>
      cases vaL with
      | nil => exact ⟨_, rfl⟩
      | cons va0 vaT =>
        cases vl with
        | none => exact ⟨_, rfl⟩
        | some vlL =>
          cases vlL with
          | nil => exact ⟨_, rfl⟩
          | cons vl0 vlT =>
            cases l with
            | none => exact ⟨_, rfl⟩
            | some lL => simp at habs

/-- Witness for C5: a history missing the `accuracy` key errors out. -/
theorem claim_C5_witness :
    ((⟨none, some [1], some [1], some [1]⟩ : HistoryRec).accuracy = none ∨
     (⟨none, some [1], some [1], some [1]⟩ : HistoryRec).val_accuracy = none ∨
     (⟨none, some [1], some [1], some [1]⟩ : HistoryRec).loss = none ∨
     (⟨none, some [1], some [1], some [1]⟩ : HistoryRec).val_loss = none) ∧
    ∃ msg, plot_training_history ⟨none, some [1], some [1], some [1]⟩ none =
      Except.error msg :=
  ⟨Or.inl rfl, claim_C5 ⟨none, some [1], some [1], some [1]⟩ none (Or.inl rfl)⟩

/-- C1: for a source image of width `W` and height `H` and a detected
bounding rectangle `(x, y, w, h)` inside the image with positive
dimensions, the padded crop rectangle of lines 38-43 has non-negative
origin and strictly positive dimensions staying inside the image, so the
crop indexing is in bounds. -/
theorem claim_C1 (W H x y w h : ℤ) (hx : 0 ≤ x) (hy : 0 ≤ y) (hxw : x + w ≤ W)
    (hyh : y + h ≤ H) (hw : 0 < w) (hh : 0 < h) :
    0 ≤ (padClamp W H x y w h).1 ∧ 0 ≤ (padClamp W H x y w h).2.1 ∧
    0 < (padClamp W H x y w h).2.2.1 ∧ 0 < (padClamp W H x y w h).2.2.2 ∧
    (padClamp W H x y w h).1 + (padClamp W H x y w h).2.2.1 ≤ W ∧
    (padClamp W H x y w h).2.1 + (padClamp W H x y w h).2.2.2 ≤ H := by
  simp only [padClamp]
  omega

/-- Witness for C1: a 100x80 image with marker rectangle (5, 7, 20, 30). -/
theorem claim_C1_witness :
    ((0:ℤ) ≤ 5 ∧ (0:ℤ) ≤ 7 ∧ (5:ℤ) + 20 ≤ 100 ∧ (7:ℤ) + 30 ≤ 80 ∧
      (0:ℤ) < 20 ∧ (0:ℤ) < 30) ∧
    (0 ≤ (padClamp 100 80 5 7 20 30).1 ∧ 0 ≤ (padClamp 100 80 5 7 20 30).2.1 ∧
     0 < (padClamp 100 80 5 7 20 30).2.2.1 ∧ 0 < (padClamp 100 80 5 7 20 30).2.2.2 ∧
     (padClamp 100 80 5 7 20 30).1 + (padClamp 100 80 5 7 20 30).2.2.1 ≤ 100 ∧
     (padClamp 100 80 5 7 20 30).2.1 + (padClamp 100 80 5 7 20 30).2.2.2 ≤ 80) :=
  ⟨by decide,
    claim_C1 100 80 5 7 20 30 (by decide) (by decide) (by decide) (by decide)
      (by decide) (by decide)⟩

/-- A mask whose rows are all false reads false at every position. -/
theorem maskGet_false_of_all (m : Mask)
    (h : ∀ row ∈ m, ∀ b ∈ row, b = false) (p : ℕ × ℕ) : maskGet m p = false := by
  unfold maskGet
  cases hrow : m.get? p.1 with
  | none => rfl
  | some row =>
    cases hb : row.get? p.2 with
    | none =>
      rw [List.get?_eq_getElem?] at hb
      simp [hb]
    | some b =>
      have hrm : row ∈ m := List.get?_mem hrow
      have hbm : b ∈ row := List.get?_mem hb
      rw [List.get?_eq_getElem?] at hb
      simp [hb, h row hrm b hbm]

/-- With an everywhere-false mask the contour scan finds nothing. -/
theorem fcAux_of_false (m : Mask) (fuel : ℕ)
    (h : ∀ p, maskGet m p = false) :
    ∀ ps vis comps, fcAux m fuel ps vis comps = comps := by
  intro ps
  induction ps with
  | nil => intro vis comps; rfl
  | cons p rest ih =>
    intro vis comps
    have : ¬(maskGet m p = true ∧ p ∉ vis) := by
      rw [h p]
      simp
    rw [fcAux, if_neg this]
    exact ih vis comps

/-- The modelled `cv2.findContours` returns no contours on an empty mask. -/
theorem findContours_nil_of_false (m : Mask)
    (h : ∀ p, maskGet m p = false) : findContours m = [] :=
  fcAux_of_false m _ h _ _ _

/-- If no pixel of the image converts into the pink HSV range, the mask is
all false. -/
theorem maskOf_all_false (img : Image)
    (hout : ∀ row ∈ img.rows, ∀ p ∈ row,
      inRangePix lower_pink upper_pink (bgr2hsvPixel p) = false) :
    ∀ row ∈ maskOf img, ∀ b ∈ row, b = false := by
  intro row hrow b hb
  unfold maskOf at hrow
  obtain ⟨srow, hsrow, rfl⟩ := List.mem_map.mp hrow
  obtain ⟨p, hp, rfl⟩ := List.mem_map.mp hb
  exact hout srow hsrow p hp

/-- C6: for a readable image with no pixel in the HSV range
`[140,50,50]`-`[170,255,255]`, the transform detects no contour, writes no
output file for that image, logs the `[WARNING]` line, and the remaining
files of the class are processed unchanged. -/
theorem claim_C6 (img : Image) (dd cn im : String) (rest : List ImgEntry)
    (target : ℕ × ℕ)
    (hout : ∀ row ∈ img.rows, ∀ p ∈ row,
      inRangePix lower_pink upper_pink (bgr2hsvPixel p) = false) :
    processOne img target = none ∧
    processClass dd cn target ((im, some img) :: rest) =
      ((processClass dd cn target rest).1,
       ("[WARNING] No pink box found in " ++ dd ++ "/" ++ cn ++ "/" ++ im) ::
         (processClass dd cn target rest).2) := by
  have hmask : ∀ p, maskGet (maskOf img) p = false :=
    maskGet_false_of_all _ (maskOf_all_false img hout)
  have hfc : findContours (maskOf img) = [] := findContours_nil_of_false _ hmask
  have hpo : processOne img target = none := by
    unfold processOne
    rw [hfc]
  refine ⟨hpo, ?_⟩
  show ((processEntry dd cn target (im, some img)).1 ++ (processClass dd cn target rest).1,
    (processEntry dd cn target (im, some img)).2 ++ (processClass dd cn target rest).2) = _
  simp [processEntry, hpo]

/-- Witness for C6: a single black pixel converts to HSV `(0,0,0)`, out of
the pink range, so the lone image of the class is skipped with a warning
and nothing is written. -/
theorem claim_C6_witness :
    (∀ row ∈ (⟨[[((0, 0, 0) : Pix)]]⟩ : Image).rows, ∀ p ∈ row,
      inRangePix lower_pink upper_pink (bgr2hsvPixel p) = false) ∧
    (processOne ⟨[[(0, 0, 0)]]⟩ (160, 160) = none ∧
     processClass "d" "c" (160, 160) [("i", some ⟨[[(0, 0, 0)]]⟩)] =
       ((processClass "d" "c" (160, 160) []).1,
        ("[WARNING] No pink box found in " ++ "d" ++ "/" ++ "c" ++ "/" ++ "i") ::
          (processClass "d" "c" (160, 160) []).2)) :=
  ⟨by decide, claim_C6 ⟨[[(0, 0, 0)]]⟩ "d" "c" "i" [] (160, 160) (by decide)⟩

/-- The writes of one directory entry: nothing, or exactly the processed
image under the entry's file name. -/
theorem processEntry_writes (dd cn : String) (t : ℕ × ℕ) (e : ImgEntry) :
    (processEntry dd cn t e).1 = [] ∨
    ∃ img out, e.2 = some img ∧ processOne img t = some out ∧
      (processEntry dd cn t e).1 = [(e.1, out)] := by
  obtain ⟨nm, o⟩ := e
  cases o with
  | none => left; rfl
  | some img =>
    cases hpo : processOne img t with
    | none => left; simp [processEntry, hpo]
    | some out => right; exact ⟨img, out, rfl, hpo, by simp [processEntry, hpo]⟩

/-- Every write of a class carries the name of one of its files. -/
theorem processClass_writes_names (dd cn : String) (t : ℕ × ℕ) (imgs : List ImgEntry) :
    ∀ wi ∈ (processClass dd cn t imgs).1, wi.1 ∈ imgs.map Prod.fst := by
  induction imgs with
  | nil => intro wi h; cases h
  | cons e rest ih =>
    intro wi h
    rw [List.map_cons]
    have h2 : wi ∈ (processEntry dd cn t e).1 ++ (processClass dd cn t rest).1 := h
    rcases List.mem_append.mp h2 with h1 | h1
    · rcases processEntry_writes dd cn t e with hw | ⟨img, out, _, _, hw⟩
      · rw [hw] at h1; cases h1
      · rw [hw] at h1
        rcases List.mem_cons.mp h1 with h3 | h3
        · rw [h3]; exact List.mem_cons_self _ _
        · cases h3
    · exact List.mem_cons.mpr (Or.inr (ih wi h1))

/-- Every written image of a class is the output of `processOne` on some
input image. -/
theorem processClass_writes_processed (dd cn : String) (t : ℕ × ℕ)
    (imgs : List ImgEntry) :
    ∀ wi ∈ (processClass dd cn t imgs).1, ∃ img, processOne img t = some wi.2 := by
  induction imgs with
  | nil => intro wi h; cases h
  | cons e rest ih =>
    intro wi h
    have h2 : wi ∈ (processEntry dd cn t e).1 ++ (processClass dd cn t rest).1 := h
    rcases List.mem_append.mp h2 with h1 | h1
    · rcases processEntry_writes dd cn t e with hw | ⟨img, out, _, hpo, hw⟩
      · rw [hw] at h1; cases h1
      · rw [hw] at h1
        rcases List.mem_cons.mp h1 with h3 | h3
        · exact ⟨img, by rw [h3]; exact hpo⟩
        · cases h3
    · exact ih wi h1

/-- A class none of whose files is written produces no writes at all. -/
theorem processClass_writes_nil (dd cn : String) (t : ℕ × ℕ) (imgs : List ImgEntry)
    (h : ∀ e ∈ imgs, (processEntry dd cn t e).1 = []) :
    (processClass dd cn t imgs).1 = [] := by
  induction imgs with
  | nil => rfl
  | cons e rest ih =>
    show (processEntry dd cn t e).1 ++ (processClass dd cn t rest).1 = []
    rw [h e (List.mem_cons_self _ _), List.nil_append]
    exact ih (fun e2 h2 => h e2 (List.mem_cons.mpr (Or.inr h2)))

/-- A file name absent from the class contributes no write. -/
theorem processClass_countP_eq_zero (dd cn : String) (t : ℕ × ℕ)
    (imgs : List ImgEntry) (im : String) (hnotin : im ∉ imgs.map Prod.fst) :
    (processClass dd cn t imgs).1.countP (fun wi => wi.1 == im) = 0 := by
  apply List.countP_eq_zero.mpr
  intro wi hwi
  have hname := processClass_writes_names dd cn t imgs wi hwi
  simp only [beq_iff_eq]
  intro hbeq
  rw [hbeq] at hname
  exact hnotin hname

/-- With distinct file names, a readable image whose marker is detected is
written exactly once within its class. -/
theorem processClass_countP_one (dd cn : String) (t : ℕ × ℕ)
    (imgs : List ImgEntry) (im : String) (img out : Image)
    (hnd : (imgs.map Prod.fst).Nodup) (hmem : (im, some img) ∈ imgs)
    (hpo : processOne img t = some out) :
    (processClass dd cn t imgs).1.countP (fun wi => wi.1 == im) = 1 := by
  induction imgs with
  | nil => cases hmem
  | cons e rest ih =>
    rw [List.map_cons, List.nodup_cons] at hnd
    have happ : (processClass dd cn t (e :: rest)).1.countP (fun wi => wi.1 == im) =
        (processEntry dd cn t e).1.countP (fun wi => wi.1 == im) +
          (processClass dd cn t rest).1.countP (fun wi => wi.1 == im) :=
      List.countP_append _ _ _
    rw [happ]
    rcases List.mem_cons.mp hmem with h1 | h1
    · have he : e = (im, some img) := h1.symm
      subst he
      have hz : (processClass dd cn t rest).1.countP (fun wi => wi.1 == im) = 0 :=
        processClass_countP_eq_zero dd cn t rest im hnd.1
      rw [hz]
      simp [processEntry, hpo]
    · have hne : e.1 ≠ im := by
        intro hiq
        apply hnd.1
        rw [hiq]
        exact List.mem_map_of_mem Prod.fst h1
      have hz : (processEntry dd cn t e).1.countP (fun wi => wi.1 == im) = 0 := by
        rcases processEntry_writes dd cn t e with hw | ⟨img2, out2, _, _, hw⟩
        · rw [hw]; rfl
        · rw [hw]
          simp [hne]
      rw [hz, ih hnd.2 h1]

/-- Inserting preserves the multiset of names. -/
theorem insertSorted_perm (s : String) (l : List String) :
    (insertSorted s l).Perm (s :: l) := by
  induction l with
  | nil => exact List.Perm.refl _
  | cons a t ih =>
    show (if strLe s a then s :: a :: t else a :: insertSorted s t).Perm (s :: a :: t)
    by_cases h : strLe s a
    · rw [if_pos h]
    · rw [if_neg h]
      exact (List.Perm.cons a ih).trans (List.Perm.swap s a t)

/-- Sorting the listing names only permutes them. -/
theorem sortedStrings_perm (l : List String) : (sortedStrings l).Perm l := by
  induction l with
  | nil => exact List.Perm.refl _
  | cons a t ih =>
    exact (insertSorted_perm a (sortedStrings t)).trans (List.Perm.cons a ih)

/-- With distinct names, lookup finds the listed entry. -/
theorem lookupEntry_eq (cn : String) (e : FsEntry) (fs : List (String × FsEntry))
    (hnd : (fs.map Prod.fst).Nodup) (hm : (cn, e) ∈ fs) :
    lookupEntry cn fs = some e := by
  induction fs with
  | nil => cases hm
  | cons he t ih =>
    obtain ⟨m, e2⟩ := he
    rw [List.map_cons, List.nodup_cons] at hnd
    rcases List.mem_cons.mp hm with h1 | h1
    · have hcn : cn = m := congrArg Prod.fst h1
      have he2 : e = e2 := congrArg Prod.snd h1
      show (if m = cn then some e2 else lookupEntry cn t) = some e
      rw [if_pos hcn.symm, he2]
    · by_cases hmc : m = cn
      · exfalso
        apply hnd.1
        rw [hmc]
        exact List.mem_map.mpr ⟨(cn, e), h1, rfl⟩
      · show (if m = cn then some e2 else lookupEntry cn t) = some e
        rw [if_neg hmc]
        exact ih hnd.2 h1

/-- Counting writes of one class across the whole run: each occurrence of
the class name in the iteration order contributes the class's own writes,
and no other class contributes a write tagged with this class name. -/
theorem ppGo_countP (dd : String) (t : ℕ × ℕ) (fs : List (String × FsEntry))
    (cn : String) (imgs : List ImgEntry) (q : String × Image → Bool)
    (hlk : lookupEntry cn fs = some (FsEntry.dir imgs)) :
    ∀ ns : List String,
      (ppGo dd t fs ns).writes.countP (fun wr => wr.1 == cn && q (wr.2.1, wr.2.2)) =
        ns.count cn * (processClass dd cn t imgs).1.countP q := by
  intro ns
  induction ns with
  | nil => simp [ppGo]
  | cons n rest ih =>
    by_cases hn : n = cn
    · subst hn
      simp only [ppGo, hlk]
      rw [List.countP_append, List.countP_map, ih, List.count_cons_self]
      have hcomp :
          ((fun wr : String × String × Image => wr.1 == n && q (wr.2.1, wr.2.2)) ∘
            (fun wi : String × Image => (n, wi.1, wi.2))) = q := by
        funext wi
        simp
      rw [hcomp]
      ring
    · cases hlkn : lookupEntry n fs with
      | none =>
        simp only [ppGo, hlkn]
        rw [ih, List.count_cons_of_ne (fun hc => hn hc.symm)]
      | some e =>
        cases e with
        | file =>
          simp only [ppGo, hlkn]
          rw [ih, List.count_cons_of_ne (fun hc => hn hc.symm)]
        | dir imgs2 =>
          simp only [ppGo, hlkn]
          rw [List.countP_append, List.countP_map, ih,
            List.count_cons_of_ne (fun hc => hn hc.symm)]
          have hz : ((processClass dd n t imgs2).1.countP
              ((fun wr : String × String × Image => wr.1 == cn && q (wr.2.1, wr.2.2)) ∘
                (fun wi : String × Image => (n, wi.1, wi.2)))) = 0 := by
            apply List.countP_eq_zero.mpr
            intro wi hwi
            simp [hn]
          rw [hz, Nat.zero_add]

/-- Every class directory reached by the iteration gets its output
directory created. -/
theorem ppGo_createdDirs (dd : String) (t : ℕ × ℕ) (fs : List (String × FsEntry))
    (cn : String) (imgs : List ImgEntry)
    (hlk : lookupEntry cn fs = some (FsEntry.dir imgs)) :
    ∀ ns : List String, cn ∈ ns → cn ∈ (ppGo dd t fs ns).createdDirs := by
  intro ns
  induction ns with
  | nil => intro h; cases h
  | cons n rest ih =>
    intro hns
    rcases List.mem_cons.mp hns with h1 | h1
    · subst h1
      simp only [ppGo, hlk]
      exact List.mem_cons_self _ _
    · cases hlkn : lookupEntry n fs with
      | none => simp only [ppGo, hlkn]; exact ih h1
      | some e =>
        cases e with
        | file => simp only [ppGo, hlkn]; exact ih h1
        | dir imgs2 =>
          simp only [ppGo, hlkn]
          exact List.mem_cons.mpr (Or.inr (ih h1))

/-- Every written image of the whole run is a `processOne` output. -/
theorem ppGo_writes_processed (dd : String) (t : ℕ × ℕ)
    (fs : List (String × FsEntry)) :
    ∀ ns : List String, ∀ wr ∈ (ppGo dd t fs ns).writes,
      ∃ img, processOne img t = some wr.2.2 := by
  intro ns
  induction ns with
  | nil => intro wr h; cases h
  | cons n rest ih =>
    intro wr h
    cases hlkn : lookupEntry n fs with
    | none =>
      simp only [ppGo, hlkn] at h
      exact ih wr h
    | some e =>
      cases e with
      | file =>
        simp only [ppGo, hlkn] at h
        exact ih wr h
      | dir imgs2 =>
        simp only [ppGo, hlkn] at h
        rcases List.mem_append.mp h with h1 | h1
        · obtain ⟨wi, hwi, hwr⟩ := List.mem_map.mp h1
          obtain ⟨img, hpo⟩ := processClass_writes_processed dd n t imgs2 wi hwi
          exact ⟨img, by rw [← hwr]; exact hpo⟩
        · exact ih wr h1

/-- The modelled `cv2.resize` output has the requested number of rows. -/
theorem imgH_resizeImg (img : Image) (tw th : ℕ) : imgH (resizeImg img tw th) = th := by
  simp [imgH, resizeImg]

/-- The modelled `cv2.resize` output has the requested number of columns. -/
theorem imgW_resizeImg (img : Image) (tw th : ℕ) (h : th ≠ 0) :
    imgW (resizeImg img tw th) = tw := by
  unfold imgW resizeImg
  cases th with
  | zero => exact absurd rfl h
  | succ n =>
    rw [List.range_succ_eq_map]
    simp

/-- A processed image has exactly the target resolution. -/
theorem processOne_dims (img : Image) (t : ℕ × ℕ) (out : Image)
    (hpo : processOne img t = some out) (h2 : t.2 ≠ 0) :
    imgH out = t.2 ∧ imgW out = t.1 := by
  unfold processOne at hpo
  cases hfc : findContours (maskOf img) with
  | nil => rw [hfc] at hpo; simp at hpo
  | cons c rest =>
    rw [hfc] at hpo
    simp only [Option.some.injEq] at hpo
    refine ⟨?_, ?_⟩
    · rw [← hpo]; exact imgH_resizeImg _ _ _
    · rw [← hpo]; exact imgW_resizeImg _ _ _ h2

/-- A detected marker always yields a processed image. -/
theorem processOne_isSome (img : Image) (t : ℕ × ℕ)
    (h : findContours (maskOf img) ≠ []) : ∃ out, processOne img t = some out := by
  unfold processOne
  cases hfc : findContours (maskOf img) with
  | nil => exact absurd hfc h
  | cons c rest => exact ⟨_, rfl⟩

/-- C7: with distinct listing names, a readable image with a detected
marker produces exactly one write, tagged with its class name and original
file name (i.e. the file `<output_dir>/<class_name>/<original_filename>`),
and every image the run writes has exactly the 160x160 target
resolution. -/
theorem claim_C7 (dd : String) (fs : List (String × FsEntry)) (cn im : String)
    (imgs : List ImgEntry) (img : Image)
    (hkeys : (fs.map Prod.fst).Nodup)
    (hcn : (cn, FsEntry.dir imgs) ∈ fs)
    (hnames : (imgs.map Prod.fst).Nodup)
    (him : (im, some img) ∈ imgs)
    (hdet : findContours (maskOf img) ≠ []) :
    (preprocess_dataset dd fs (160, 160)).writes.countP
        (fun wr => wr.1 == cn && wr.2.1 == im) = 1 ∧
    ∀ wr ∈ (preprocess_dataset dd fs (160, 160)).writes,
      imgH wr.2.2 = 160 ∧ imgW wr.2.2 = 160 := by
  have hlk : lookupEntry cn fs = some (FsEntry.dir imgs) :=
    lookupEntry_eq cn _ fs hkeys hcn
  obtain ⟨out, hpo⟩ := processOne_isSome img (160, 160) hdet
  constructor
  · have hmain := ppGo_countP dd (160, 160) fs cn imgs (fun wi => wi.1 == im) hlk
      (sortedStrings (fs.map Prod.fst))
    have hmem : cn ∈ fs.map Prod.fst := List.mem_map.mpr ⟨(cn, FsEntry.dir imgs), hcn, rfl⟩
    have hcnt : (sortedStrings (fs.map Prod.fst)).count cn = 1 := by
      rw [(sortedStrings_perm (fs.map Prod.fst)).count_eq]
      exact List.count_eq_one_of_mem hkeys hmem
    have hone := processClass_countP_one dd cn (160, 160) imgs im img out hnames him hpo
    rw [hcnt, hone] at hmain
    simpa using hmain
  · intro wr hwr
    obtain ⟨img2, hpo2⟩ :=
      ppGo_writes_processed dd (160, 160) fs (sortedStrings (fs.map Prod.fst)) wr hwr
    exact processOne_dims img2 (160, 160) wr.2.2 hpo2 (by decide)

/-- Witness for C7: a one-class dataset with one magenta image yields
exactly one write under the class, at the target resolution. -/
theorem claim_C7_witness :
    ((exampleFs.map Prod.fst).Nodup ∧
      ("A", FsEntry.dir [("a", some pinkImg)]) ∈ exampleFs ∧
      (([("a", some pinkImg)] : List ImgEntry).map Prod.fst).Nodup ∧
      ("a", some pinkImg) ∈ ([("a", some pinkImg)] : List ImgEntry) ∧
      findContours (maskOf pinkImg) ≠ []) ∧
    ((preprocess_dataset "d" exampleFs (160, 160)).writes.countP
        (fun wr => wr.1 == "A" && wr.2.1 == "a") = 1 ∧
     ∀ wr ∈ (preprocess_dataset "d" exampleFs (160, 160)).writes,
       imgH wr.2.2 = 160 ∧ imgW wr.2.2 = 160) :=
  ⟨⟨by decide, by decide, by decide, by decide, by decide⟩,
    claim_C7 "d" exampleFs "A" "a" [("a", some pinkImg)] pinkImg
      (by decide) (by decide) (by decide) (by decide) (by decide)⟩

/-- C10: with distinct listing names, every class subdirectory of the
input gets its output subdirectory created, even when none of its images
produces an output file (the directory exists with zero writes for the
class). -/
theorem claim_C10 (dd : String) (fs : List (String × FsEntry)) (cn : String)
    (imgs : List ImgEntry) (t : ℕ × ℕ)
    (hkeys : (fs.map Prod.fst).Nodup)
    (hcn : (cn, FsEntry.dir imgs) ∈ fs) :
    cn ∈ (preprocess_dataset dd fs t).createdDirs ∧
    ((∀ e ∈ imgs, (processEntry dd cn t e).1 = []) →
      (preprocess_dataset dd fs t).writes.countP (fun wr => wr.1 == cn) = 0) := by
  have hlk : lookupEntry cn fs = some (FsEntry.dir imgs) :=
    lookupEntry_eq cn _ fs hkeys hcn
  constructor
  · apply ppGo_createdDirs dd t fs cn imgs hlk
    exact (sortedStrings_perm (fs.map Prod.fst)).mem_iff.mpr
      (List.mem_map.mpr ⟨(cn, FsEntry.dir imgs), hcn, rfl⟩)
  · intro hnone
    have hmain := ppGo_countP dd t fs cn imgs (fun _ => true) hlk
      (sortedStrings (fs.map Prod.fst))
    rw [processClass_writes_nil dd cn t imgs hnone] at hmain
    simpa using hmain

/-- Witness for C10: a class with a single unreadable image still gets its
output directory created, with zero writes. -/
theorem claim_C10_witness :
    ((exampleFsUnreadable.map Prod.fst).Nodup ∧
      ("B", FsEntry.dir [("b", none)]) ∈ exampleFsUnreadable ∧
      ∀ e ∈ ([("b", none)] : List ImgEntry), (processEntry "d" "B" (160, 160) e).1 = []) ∧
    ("B" ∈ (preprocess_dataset "d" exampleFsUnreadable (160, 160)).createdDirs ∧
      (preprocess_dataset "d" exampleFsUnreadable (160, 160)).writes.countP
        (fun wr => wr.1 == "B") = 0) := by
  have h := claim_C10 "d" exampleFsUnreadable "B" [("b", none)] (160, 160)
    (by decide) (by decide)
  exact ⟨⟨by decide, by decide, by decide⟩, h.1, h.2 (by decide)⟩

/-- Reading a file after a run: the last write wins, otherwise the
previous contents show through. -/
theorem applyWrites_lookup (ws : List (String × String × Image)) :
    ∀ (st : Store) (k : FileKey),
      applyWrites ws st k =
        match lastWrite ws k with
        | some v => some v
        | none => st k := by
  induction ws with
  | nil => intro st k; rfl
  | cons w rest ih =>
    intro st k
    obtain ⟨c, i, img⟩ := w
    show applyWrites rest (fun k2 => if k2 = (c, i) then some img else st k2) k = _
    rw [ih]
    cases hlw : lastWrite rest k with
    | some v => simp [lastWrite, hlw]
    | none =>
      simp only [lastWrite, hlw]
      by_cases hk : k = (c, i)
      · simp [hk]
      · simp [hk]

/-- A key that is written ends up with a definite last write. -/
theorem lastWrite_isSome (ws : List (String × String × Image)) (k : FileKey) :
    ∀ wr ∈ ws, (wr.1, wr.2.1) = k → ∃ v, lastWrite ws k = some v := by
  induction ws with
  | nil => intro wr h; cases h
  | cons w rest ih =>
    intro wr h hk
    obtain ⟨c, i, img⟩ := w
    show ∃ v, (match lastWrite rest k with
      | some v => some v
      | none => if k = (c, i) then some img else none) = some v
    rcases List.mem_cons.mp h with h1 | h1
    · cases hlw : lastWrite rest k with
      | some v => exact ⟨v, by simp [hlw]⟩
      | none =>
        subst h1
        rw [← hk]
        exact ⟨img, by simp [hlw]⟩
    · obtain ⟨v, hv⟩ := ih wr h1 hk
      exact ⟨v, by simp [hv]⟩

/-- C8: the transform is deterministic and idempotent: applying a run's
writes twice equals applying them once, and the final contents of every
written output file are independent of the previous state of the output
tree, so two runs on the same input leave identical bytes in every file
they write. -/
theorem claim_C8 (dd : String) (fs : List (String × FsEntry)) (t : ℕ × ℕ)
    (st st2 : Store) :
    applyWrites (preprocess_dataset dd fs t).writes
        (applyWrites (preprocess_dataset dd fs t).writes st) =
      applyWrites (preprocess_dataset dd fs t).writes st ∧
    ∀ k : FileKey, (∃ wr ∈ (preprocess_dataset dd fs t).writes, (wr.1, wr.2.1) = k) →
      applyWrites (preprocess_dataset dd fs t).writes st k =
        applyWrites (preprocess_dataset dd fs t).writes st2 k := by
  constructor
  · funext k
    rw [applyWrites_lookup, applyWrites_lookup]
    cases hlw : lastWrite (preprocess_dataset dd fs t).writes k with
    | some v => simp [hlw]
    | none => simp [hlw, applyWrites_lookup]
  · intro k hk
    obtain ⟨wr, hwr, hkey⟩ := hk
    obtain ⟨v, hv⟩ := lastWrite_isSome (preprocess_dataset dd fs t).writes k wr hwr hkey
    rw [applyWrites_lookup, applyWrites_lookup, hv]

/-- Witness for C8: on the one-image dataset the written file's final
contents do not depend on what the output tree held before the run. -/
theorem claim_C8_witness :
    (∃ wr ∈ (preprocess_dataset "d" exampleFs (1, 1)).writes, (wr.1, wr.2.1) = ("A", "a")) ∧
    applyWrites (preprocess_dataset "d" exampleFs (1, 1)).writes (fun _ => none) ("A", "a") =
      applyWrites (preprocess_dataset "d" exampleFs (1, 1)).writes
        (fun _ => some ⟨[]⟩) ("A", "a") :=
  ⟨by decide,
    (claim_C8 "d" exampleFs (1, 1) (fun _ => none) (fun _ => some ⟨[]⟩)).2
      ("A", "a") (by decide)⟩
